import Mathlib

set_option maxHeartbeats 1000000

/-!
Shallow embedding of the asset-cache library (src/src/lib.rs).

The Rust code stores values behind Arc-shared, type-erased handles and keeps
them in a two-tier cache: an unbounded in_use map and a bounded LRU pool
named loaded.  The embedding makes the Arc machinery explicit:

* every HandleInner allocation gets an index into a heap list; a RawHandle
  is that index, so Arc pointer identity is index equality;
* a World records the heap, the cache, and the multiset of handles held by
  callers outside the cache (the external list);
* the Arc strong count of an allocation is the number of occurrences of its
  index across in_use, loaded and external.
-/

/-- Runtime type tags standing for the dynamic types stored behind the
erased value in the Rust source.  A closed universe of payload
types is enough for the embedding. -/
inductive TypeTag where
  | tInt
  | tStr
  | tBool
deriving DecidableEq

/-- A type-erased value together with its dynamic type. -/
inductive DynValue where
  | vInt (n : Int)
  | vStr (s : String)
  | vBool (b : Bool)
deriving DecidableEq

/-- The dynamic type of an erased value. -/
def DynValue.typeOf : DynValue → TypeTag
  | .vInt _ => .tInt
  | .vStr _ => .tStr
  | .vBool _ => .tBool

/-- struct HandleInner: the immutable key/value pair allocated once per
insert and never mutated afterwards. -/
structure HandleInner where
  key : String
  value : DynValue
deriving DecidableEq

/-- A RawHandle is one Arc reference to a HandleInner allocation; the Nat is
the allocation index, so Arc pointer identity is equality of indices. -/
abbrev RawHandle := Nat

/-- Arc pointer identity of the two handles (RawHandle.ptr_eq in the source). -/
abbrev RawHandle.ptr_eq (a b : RawHandle) : Prop := a = b

/-- struct Handle T: a RawHandle plus the phantom type parameter, recorded
here as a runtime tag. -/
structure Handle where
  raw : RawHandle
  tag : TypeTag
deriving DecidableEq

/-- Lookup in an association list, modelling HashMap get / LruCache peek. -/
def hmLookup : List (String × RawHandle) → String → Option RawHandle
  | [], _ => none
  | p :: rest, k => if p.1 = k then some p.2 else hmLookup rest k

/-- Remove every binding of a key, modelling HashMap remove / LruCache pop
(the maps never hold a key twice, so at most one binding is dropped). -/
def hmErase : List (String × RawHandle) → String → List (String × RawHandle)
  | [], _ => []
  | p :: t, k => if p.1 = k then hmErase t k else p :: hmErase t k

/-- HashMap insert: the new binding replaces any existing one for the key. -/
def hmInsert (l : List (String × RawHandle)) (k : String) (v : RawHandle) :
    List (String × RawHandle) :=
  (k, v) :: hmErase l k

/-- Number of bindings of a key in an association list. -/
def keyCount : List (String × RawHandle) → String → Nat
  | [], _ => 0
  | p :: t, k => (if p.1 = k then 1 else 0) + keyCount t k

/-- Number of bindings whose value is the given allocation index. -/
def countVals : List (String × RawHandle) → RawHandle → Nat
  | [], _ => 0
  | p :: t, id => (if p.2 = id then 1 else 0) + countVals t id

/-- Occurrences of an allocation index in the externally held handles. -/
def natCount : List RawHandle → RawHandle → Nat
  | [], _ => 0
  | x :: t, id => (if x = id then 1 else 0) + natCount t id

/-- Drop one occurrence of a handle from the external list (one Arc clone
being consumed or dropped). -/
def removeOne : List RawHandle → RawHandle → List RawHandle
  | [], _ => []
  | x :: t, id => if x = id then t else x :: removeOne t id

/-- Read the heap at an allocation index (dereferencing the Arc). -/
def heapAt : List HandleInner → Nat → Option HandleInner
  | [], _ => none
  | x :: _, 0 => some x
  | _ :: t, n + 1 => heapAt t n

/-- LruCache put: move the key to the most-recent end, then truncate to the
capacity, evicting from the least-recent end. -/
def lruPut (cap : Nat) (l : List (String × RawHandle)) (k : String) (v : RawHandle) :
    List (String × RawHandle) :=
  ((k, v) :: hmErase l k).take cap

/-- struct ResourceCache: the in_use map, the loaded LRU pool (most recent
first) and the fixed capacity of the pool. -/
structure ResourceCache where
  in_use : List (String × RawHandle)
  loaded : List (String × RawHandle)
  capacity : Nat
deriving DecidableEq

/-- Whole-program state: the heap of HandleInner allocations, the cache, and
the handles currently held by external callers. -/
structure World where
  heap : List HandleInner
  cache : ResourceCache
  external : List RawHandle
deriving DecidableEq

/-- ResourceCache new: both tiers empty. -/
def ResourceCache.new (cap : Nat) : ResourceCache := ⟨[], [], cap⟩

/-- A fresh world: empty heap, fresh cache, no external handles. -/
def World.new (cap : Nat) : World := ⟨[], ResourceCache.new cap, []⟩

/-- Handle new: allocate a fresh, singly owned HandleInner and return the
typed handle to it. -/
def Handle.new (heap : List HandleInner) (key : String) (value : DynValue) :
    Handle × List HandleInner :=
  (⟨heap.length, value.typeOf⟩, heap ++ [⟨key, value⟩])

/-- RawHandle downcast: check the erased value against the tag; on a match
return the typed handle over the same allocation, otherwise nothing (the
Rust version hands the untouched RawHandle back in the error branch). -/
def RawHandle.downcast (heap : List HandleInner) (id : RawHandle) (tag : TypeTag) :
    Option Handle :=
  match heapAt heap id with
  | some inner => if inner.value.typeOf = tag then some ⟨id, tag⟩ else none
  | none => none

/-- Handle deref: the runtime-checked cast inside Deref; none is the branch
on which the Rust code would panic via unwrap. -/
def Handle.deref (w : World) (h : Handle) : Option DynValue :=
  match heapAt w.heap h.raw with
  | some inner => if inner.value.typeOf = h.tag then some inner.value else none
  | none => none

/-- Arc strong_count of an allocation: its occurrences across the in_use
map, the loaded pool and the externally held handles. -/
def World.strongCount (w : World) (id : RawHandle) : Nat :=
  countVals w.cache.in_use id + countVals w.cache.loaded id + natCount w.external id

/-- ResourceCache insert: drop any loaded entry for the key, allocate a new
HandleInner, store one clone in in_use and hand the other to the caller. -/
def ResourceCache.insert (w : World) (k : String) (v : DynValue) : Handle × World :=
  let p := Handle.new w.heap k v
  (p.1,
    { heap := p.2,
      cache := { w.cache with
        in_use := hmInsert w.cache.in_use k p.1.raw,
        loaded := hmErase w.cache.loaded k },
      external := p.1.raw :: w.external })

/-- ResourceCache get_raw: a hit in in_use returns a clone; a hit in loaded
pops the entry, reinstates it in in_use and returns a clone (promotion);
otherwise nothing. -/
def ResourceCache.get_raw (w : World) (k : String) : Option RawHandle × World :=
  match hmLookup w.cache.in_use k with
  | some id => (some id, { w with external := id :: w.external })
  | none =>
    match hmLookup w.cache.loaded k with
    | some id =>
        (some id,
          { w with
            cache := { w.cache with
              in_use := hmInsert w.cache.in_use k id,
              loaded := hmErase w.cache.loaded k },
            external := id :: w.external })
    | none => (none, w)

/-- ResourceCache get: get_raw then downcast; on a tag mismatch the clone
returned by get_raw is dropped again. -/
def ResourceCache.get (w : World) (tag : TypeTag) (k : String) : Option Handle × World :=
  match ResourceCache.get_raw w k with
  | (some id, w') =>
    match RawHandle.downcast w'.heap id tag with
    | some h => (some h, w')
    | none => (none, { w' with external := removeOne w'.external id })
  | (none, w') => (none, w')

/-- ResourceCache remove: the caller hands its handle back; if the strong
count is exactly two (the in_use slot plus the handle just passed in, by
the code's reading) the key is dropped from in_use and the handle moved
into the loaded LRU pool, else the passed handle is simply dropped.  The
count is taken while the passed handle is still alive, so the external
list still contains it. -/
def ResourceCache.remove (w : World) (id : RawHandle) : World :=
  match heapAt w.heap id with
  | none => w
  | some inner =>
    if w.strongCount id = 2 then
      { w with
        cache := { w.cache with
          in_use := hmErase w.cache.in_use inner.key,
          loaded := lruPut w.cache.capacity w.cache.loaded inner.key id },
        external := removeOne w.external id }
    else
      { w with external := removeOne w.external id }

/-- An external caller clones a handle it holds. -/
def World.cloneHandle (w : World) (id : RawHandle) : World :=
  { w with external := id :: w.external }

/-- An external caller drops a handle it holds. -/
def World.dropHandle (w : World) (id : RawHandle) : World :=
  { w with external := removeOne w.external id }

/-- Well-formed world: every handle stored anywhere points into the heap. -/
def WF (w : World) : Prop :=
  (∀ p ∈ w.cache.in_use, p.2 < w.heap.length) ∧
  (∀ p ∈ w.cache.loaded, p.2 < w.heap.length) ∧
  (∀ id ∈ w.external, id < w.heap.length)

instance (w : World) : Decidable (WF w) := by
  unfold WF
  infer_instance

/-- One step of the public interface, with external callers free to clone
and drop handles they hold. -/
inductive Step : World → World → Prop where
  | insert (w : World) (k : String) (v : DynValue) :
      Step w (ResourceCache.insert w k v).2
  | get (w : World) (tag : TypeTag) (k : String) :
      Step w (ResourceCache.get w tag k).2
  | get_raw (w : World) (k : String) :
      Step w (ResourceCache.get_raw w k).2
  | remove (w : World) (id : RawHandle) (hmem : id ∈ w.external) :
      Step w (ResourceCache.remove w id)
  | clone (w : World) (id : RawHandle) (hmem : id ∈ w.external) :
      Step w (World.cloneHandle w id)
  | drop (w : World) (id : RawHandle) (hmem : id ∈ w.external) :
      Step w (World.dropHandle w id)

/-- Worlds reachable from a fresh cache of positive capacity. -/
inductive Reachable : World → Prop where
  | init (cap : Nat) (hpos : 0 < cap) : Reachable (World.new cap)
  | step (w w' : World) (hr : Reachable w) (hs : Step w w') : Reachable w'

/-- The type invariant of Handle: the erased value really has the tagged
type, so the checked cast in deref succeeds. -/
def WellTypedHandle (w : World) (h : Handle) : Prop :=
  ∃ inner, heapAt w.heap h.raw = some inner ∧ inner.value.typeOf = h.tag

/-- Typed handles obtainable through the public interface: handed out by
insert, produced by a successful downcast, cloned, or carried along while
the world takes interface steps. -/
inductive HandleProvenance : World → Handle → Prop where
  | ofInsert (w : World) (k : String) (v : DynValue) :
      HandleProvenance (ResourceCache.insert w k v).2 (ResourceCache.insert w k v).1
  | ofDowncast (w : World) (id : RawHandle) (tag : TypeTag) (h : Handle)
      (hd : RawHandle.downcast w.heap id tag = some h) :
      HandleProvenance w h
  | ofClone (w : World) (h : Handle) (hp : HandleProvenance w h) :
      HandleProvenance (World.cloneHandle w h.raw) h
  | ofStep (w w' : World) (h : Handle) (hp : HandleProvenance w h) (hs : Step w w') :
      HandleProvenance w' h

/-! Basic lemmas about the association-list and counting helpers. -/

theorem hmLookup_hmErase_self (l : List (String × RawHandle)) (k : String) :
    hmLookup (hmErase l k) k = none := by
  induction l with
  | nil => rfl
  | cons p t ih =>
    by_cases h : p.1 = k
    · simpa [hmErase, h] using ih
    · simpa [hmErase, hmLookup, h] using ih

theorem hmLookup_hmErase_ne (l : List (String × RawHandle)) (k k' : String) (h : k' ≠ k) :
    hmLookup (hmErase l k) k' = hmLookup l k' := by
  induction l with
  | nil => rfl
  | cons p t ih =>
    have hk : ¬k = k' := fun hh => h hh.symm
    by_cases hpk : p.1 = k
    · simp [hmErase, hmLookup, hpk, hk, ih]
    · simp [hmErase, hmLookup, hpk, ih]

theorem hmLookup_hmInsert_self (l : List (String × RawHandle)) (k : String) (v : RawHandle) :
    hmLookup (hmInsert l k v) k = some v := by
  simp [hmInsert, hmLookup]

theorem hmLookup_hmInsert_ne (l : List (String × RawHandle)) (k k' : String) (v : RawHandle)
    (h : k' ≠ k) : hmLookup (hmInsert l k v) k' = hmLookup l k' := by
  have hk : k ≠ k' := fun hh => h hh.symm
  simp [hmInsert, hmLookup, hk, hmLookup_hmErase_ne l k k' h]

theorem keyCount_hmErase_self (l : List (String × RawHandle)) (k : String) :
    keyCount (hmErase l k) k = 0 := by
  induction l with
  | nil => rfl
  | cons p t ih =>
    by_cases h : p.1 = k
    · simpa [hmErase, h] using ih
    · simpa [hmErase, keyCount, h] using ih

theorem keyCount_hmErase_ne (l : List (String × RawHandle)) (k k' : String) (h : k' ≠ k) :
    keyCount (hmErase l k) k' = keyCount l k' := by
  induction l with
  | nil => rfl
  | cons p t ih =>
    have hk : ¬k = k' := fun hh => h hh.symm
    by_cases hpk : p.1 = k
    · simp [hmErase, keyCount, hpk, hk, ih]
    · simp [hmErase, keyCount, hpk, ih]

theorem keyCount_hmInsert_self (l : List (String × RawHandle)) (k : String) (v : RawHandle) :
    keyCount (hmInsert l k v) k = 1 := by
  simp [hmInsert, keyCount, keyCount_hmErase_self]

theorem keyCount_hmInsert_ne (l : List (String × RawHandle)) (k k' : String) (v : RawHandle)
    (h : k' ≠ k) : keyCount (hmInsert l k v) k' = keyCount l k' := by
  have hk : k ≠ k' := fun hh => h hh.symm
  simp [hmInsert, keyCount, hk, keyCount_hmErase_ne l k k' h]

theorem keyCount_take_le (l : List (String × RawHandle)) (n : Nat) (k : String) :
    keyCount (l.take n) k ≤ keyCount l k := by
  induction l generalizing n with
  | nil => simp [keyCount]
  | cons p t ih =>
    cases n with
    | zero => simp [keyCount]
    | succ m =>
      simp only [List.take_succ_cons, keyCount]
      exact Nat.add_le_add_left (ih m) _

theorem keyCount_lruPut_self (cap : Nat) (l : List (String × RawHandle)) (k : String)
    (v : RawHandle) : keyCount (lruPut cap l k v) k ≤ 1 := by
  have h := keyCount_take_le ((k, v) :: hmErase l k) cap k
  simpa [lruPut, keyCount, keyCount_hmErase_self] using h

theorem keyCount_lruPut_ne (cap : Nat) (l : List (String × RawHandle)) (k k' : String)
    (v : RawHandle) (h : k' ≠ k) : keyCount (lruPut cap l k v) k' ≤ keyCount l k' := by
  have h1 := keyCount_take_le ((k, v) :: hmErase l k) cap k'
  have hk : k ≠ k' := fun hh => h hh.symm
  calc keyCount (lruPut cap l k v) k' ≤ keyCount ((k, v) :: hmErase l k) k' := h1
    _ = keyCount l k' := by simp [keyCount, hk, keyCount_hmErase_ne l k k' h]

theorem mem_hmErase (l : List (String × RawHandle)) (k : String) (p : String × RawHandle)
    (h : p ∈ hmErase l k) : p ∈ l := by
  induction l with
  | nil => simp [hmErase] at h
  | cons q t ih =>
    by_cases hq : q.1 = k
    · simp only [hmErase, if_pos hq] at h
      exact List.mem_cons_of_mem q (ih h)
    · simp only [hmErase, if_neg hq, List.mem_cons] at h
      rcases h with h | h
      · exact h ▸ List.mem_cons_self q t
      · exact List.mem_cons_of_mem q (ih h)

theorem countVals_eq_zero (l : List (String × RawHandle)) (id : RawHandle)
    (h : ∀ p ∈ l, p.2 ≠ id) : countVals l id = 0 := by
  induction l with
  | nil => rfl
  | cons p t ih =>
    have hp : p.2 ≠ id := h p (List.mem_cons_self p t)
    have ht : ∀ q ∈ t, q.2 ≠ id := fun q hq => h q (List.mem_cons_of_mem p hq)
    simp [countVals, hp, ih ht]

theorem natCount_eq_zero (l : List RawHandle) (id : RawHandle)
    (h : ∀ x ∈ l, x ≠ id) : natCount l id = 0 := by
  induction l with
  | nil => rfl
  | cons x t ih =>
    have hx : x ≠ id := h x (List.mem_cons_self x t)
    have ht : ∀ y ∈ t, y ≠ id := fun y hy => h y (List.mem_cons_of_mem x hy)
    simp [natCount, hx, ih ht]

theorem natCount_pos_of_mem (l : List RawHandle) (id : RawHandle) (h : id ∈ l) :
    0 < natCount l id := by
  induction l with
  | nil => simp at h
  | cons x t ih =>
    rcases List.mem_cons.mp h with h | h
    · simp [natCount, h.symm]
    · by_cases hx : x = id
      · simp [natCount, hx]
      · simpa [natCount, hx] using ih h

theorem natCount_removeOne_self (l : List RawHandle) (id : RawHandle) :
    natCount (removeOne l id) id = natCount l id - 1 := by
  induction l with
  | nil => rfl
  | cons x t ih =>
    by_cases hx : x = id
    · simp [removeOne, natCount, hx]
    · simp [removeOne, natCount, hx, ih]

theorem removeOne_cons_self (l : List RawHandle) (id : RawHandle) :
    removeOne (id :: l) id = l := by
  simp [removeOne]

theorem heapAt_some_lt (l : List HandleInner) (i : Nat) (x : HandleInner)
    (h : heapAt l i = some x) : i < l.length := by
  induction l generalizing i with
  | nil => simp [heapAt] at h
  | cons y t ih =>
    cases i with
    | zero => simp
    | succ m =>
      have := ih m h
      simpa using Nat.succ_lt_succ this

theorem heapAt_append_lt (l l2 : List HandleInner) (i : Nat) (h : i < l.length) :
    heapAt (l ++ l2) i = heapAt l i := by
  induction l generalizing i with
  | nil => simp at h
  | cons y t ih =>
    cases i with
    | zero => rfl
    | succ m =>
      have hm : m < t.length := Nat.lt_of_succ_lt_succ h
      simpa [heapAt] using ih m hm

theorem heapAt_append_self (l : List HandleInner) (x : HandleInner) :
    heapAt (l ++ [x]) l.length = some x := by
  induction l with
  | nil => rfl
  | cons y t ih => simpa [heapAt] using ih

/-! Frame lemmas: which parts of the world each operation can touch. -/

theorem insert_heap (w : World) (k : String) (v : DynValue) :
    (ResourceCache.insert w k v).2.heap = w.heap ++ [⟨k, v⟩] := rfl

theorem get_raw_heap (w : World) (k : String) :
    (ResourceCache.get_raw w k).2.heap = w.heap := by
  unfold ResourceCache.get_raw
  cases hmLookup w.cache.in_use k with
  | some id => rfl
  | none =>
    cases hmLookup w.cache.loaded k with
    | some id => rfl
    | none => rfl

theorem get_heap (w : World) (tag : TypeTag) (k : String) :
    (ResourceCache.get w tag k).2.heap = w.heap := by
  have hw : (ResourceCache.get_raw w k).2.heap = w.heap := get_raw_heap w k
  cases hr : ResourceCache.get_raw w k with
  | mk o w' =>
    rw [hr] at hw
    cases o with
    | some id =>
      cases hd : RawHandle.downcast w'.heap id tag with
      | some h => simpa [ResourceCache.get, hr, hd] using hw
      | none => simpa [ResourceCache.get, hr, hd] using hw
    | none => simpa [ResourceCache.get, hr] using hw

theorem remove_heap (w : World) (id : RawHandle) :
    (ResourceCache.remove w id).heap = w.heap := by
  unfold ResourceCache.remove
  cases heapAt w.heap id with
  | none => rfl
  | some inner =>
    by_cases h : w.strongCount id = 2
    · simp [h]
    · simp [h]

theorem insert_cache_in_use (w : World) (k : String) (v : DynValue) :
    (ResourceCache.insert w k v).2.cache.in_use =
      hmInsert w.cache.in_use k w.heap.length := rfl

theorem insert_cache_loaded (w : World) (k : String) (v : DynValue) :
    (ResourceCache.insert w k v).2.cache.loaded = hmErase w.cache.loaded k := rfl

theorem insert_external (w : World) (k : String) (v : DynValue) :
    (ResourceCache.insert w k v).2.external = w.heap.length :: w.external := rfl

theorem insert_handle (w : World) (k : String) (v : DynValue) :
    (ResourceCache.insert w k v).1 = ⟨w.heap.length, v.typeOf⟩ := rfl

theorem get_cache (w : World) (tag : TypeTag) (k : String) :
    (ResourceCache.get w tag k).2.cache = (ResourceCache.get_raw w k).2.cache := by
  cases hr : ResourceCache.get_raw w k with
  | mk o w' =>
    cases o with
    | some id =>
      cases hd : RawHandle.downcast w'.heap id tag with
      | some h => simp [ResourceCache.get, hr, hd]
      | none => simp [ResourceCache.get, hr, hd]
    | none => simp [ResourceCache.get, hr]


/-! Tier exclusivity: the invariant behind claim C4. -/

/-- Tier exclusivity: every key has at most one binding across the in_use
map and the loaded pool taken together, so it is never in both tiers and
never duplicated inside one. -/
def TierInv (w : World) : Prop :=
  ∀ k, keyCount w.cache.in_use k + keyCount w.cache.loaded k ≤ 1

theorem tierInv_new (cap : Nat) : TierInv (World.new cap) := by
  intro k
  simp [World.new, ResourceCache.new, keyCount]

theorem tierInv_insert (w : World) (k : String) (v : DynValue) (hw : TierInv w) :
    TierInv (ResourceCache.insert w k v).2 := by
  intro k'
  rw [insert_cache_in_use, insert_cache_loaded]
  by_cases hk : k' = k
  · subst hk
    rw [keyCount_hmInsert_self, keyCount_hmErase_self]
  · rw [keyCount_hmInsert_ne _ _ _ _ hk, keyCount_hmErase_ne _ _ _ hk]
    exact hw k'

theorem tierInv_get_raw (w : World) (k : String) (hw : TierInv w) :
    TierInv (ResourceCache.get_raw w k).2 := by
  cases h1 : hmLookup w.cache.in_use k with
  | some id =>
    intro k'
    simp only [ResourceCache.get_raw, h1]
    exact hw k'
  | none =>
    cases h2 : hmLookup w.cache.loaded k with
    | some id =>
      intro k'
      simp only [ResourceCache.get_raw, h1, h2]
      by_cases hk : k' = k
      · subst hk
        rw [keyCount_hmInsert_self, keyCount_hmErase_self]
      · rw [keyCount_hmInsert_ne _ _ _ _ hk, keyCount_hmErase_ne _ _ _ hk]
        exact hw k'
    | none =>
      intro k'
      simp only [ResourceCache.get_raw, h1, h2]
      exact hw k'

theorem tierInv_get (w : World) (tag : TypeTag) (k : String) (hw : TierInv w) :
    TierInv (ResourceCache.get w tag k).2 := by
  intro k'
  rw [get_cache]
  exact tierInv_get_raw w k hw k'

theorem tierInv_remove (w : World) (id : RawHandle) (hw : TierInv w) :
    TierInv (ResourceCache.remove w id) := by
  cases hh : heapAt w.heap id with
  | none =>
    intro k'
    simp only [ResourceCache.remove, hh]
    exact hw k'
  | some inner =>
    by_cases hc : w.strongCount id = 2
    · intro k'
      simp only [ResourceCache.remove, hh, if_pos hc]
      by_cases hk : k' = inner.key
      · subst hk
        rw [keyCount_hmErase_self]
        have h1 := keyCount_lruPut_self w.cache.capacity w.cache.loaded inner.key id
        omega
      · rw [keyCount_hmErase_ne _ _ _ hk]
        have h1 := keyCount_lruPut_ne w.cache.capacity w.cache.loaded inner.key k' id hk
        have h2 := hw k'
        omega
    · intro k'
      simp only [ResourceCache.remove, hh, if_neg hc]
      exact hw k'

theorem tierInv_step (w w' : World) (hs : Step w w') (hw : TierInv w) : TierInv w' := by
  cases hs with
  | insert k v => exact tierInv_insert w k v hw
  | get tag k => exact tierInv_get w tag k hw
  | get_raw k => exact tierInv_get_raw w k hw
  | remove id hmem => exact tierInv_remove w id hw
  | clone id hmem => exact fun k => hw k
  | drop id hmem => exact fun k => hw k

/-- Claim C4: in every state reachable from a fresh ResourceCache by any
sequence of interface operations, every key is present in at most one of
the in_use map and the loaded LRU pool, never in both and never
duplicated. -/
theorem tier_exclusive (w : World) (hr : Reachable w) : TierInv w := by
  induction hr with
  | init cap hpos => exact tierInv_new cap
  | step w1 w2 hr1 hs ih => exact tierInv_step w1 w2 hs ih

/-- Witness for claim C4: tier exclusivity holds in the concrete reachable
world produced by one insert on a fresh cache of capacity 2. -/
theorem tier_exclusive_witness :
    TierInv (ResourceCache.insert (World.new 2) "a" (DynValue.vInt 1)).2 :=
  tier_exclusive (ResourceCache.insert (World.new 2) "a" (DynValue.vInt 1)).2
    (Reachable.step (World.new 2) _ (Reachable.init 2 (by decide))
      (Step.insert (World.new 2) "a" (DynValue.vInt 1)))

/-! Deref safety: the invariant behind claim C9. -/

theorem step_heapAt (w w' : World) (hs : Step w w') (i : Nat) (x : HandleInner)
    (h : heapAt w.heap i = some x) : heapAt w'.heap i = some x := by
  cases hs with
  | insert k v =>
    rw [insert_heap, heapAt_append_lt w.heap _ i (heapAt_some_lt w.heap i x h)]
    exact h
  | get tag k =>
    rw [get_heap]
    exact h
  | get_raw k =>
    rw [get_raw_heap]
    exact h
  | remove id hmem =>
    rw [remove_heap]
    exact h
  | clone id hmem => exact h
  | drop id hmem => exact h

theorem wellTyped_of_provenance (w : World) (h : Handle) (hp : HandleProvenance w h) :
    WellTypedHandle w h := by
  induction hp with
  | ofInsert w1 k v =>
    exact ⟨⟨k, v⟩, heapAt_append_self w1.heap ⟨k, v⟩, rfl⟩
  | ofDowncast w1 id tag h1 hd =>
    cases hh : heapAt w1.heap id with
    | none =>
      have he : RawHandle.downcast w1.heap id tag = none := by
        simp [RawHandle.downcast, hh]
      rw [he] at hd
      simp at hd
    | some inner =>
      by_cases ht : inner.value.typeOf = tag
      · have he : RawHandle.downcast w1.heap id tag = some ⟨id, tag⟩ := by
          simp [RawHandle.downcast, hh, ht]
        rw [he] at hd
        injection hd with hd1
        subst hd1
        exact ⟨inner, hh, ht⟩
      · have he : RawHandle.downcast w1.heap id tag = none := by
          simp [RawHandle.downcast, hh, ht]
        rw [he] at hd
        simp at hd
  | ofClone w1 h1 hp1 ih => exact ih
  | ofStep w1 w2 h1 hp1 hs ih =>
    obtain ⟨inner, hh, ht⟩ := ih
    exact ⟨inner, step_heapAt w1 w2 hs _ _ hh, ht⟩

/-- Claim C9: every typed handle obtained through the public interface (from
insert, from a successful downcast, by cloning, or carried across further
interface operations) satisfies the type invariant, so the runtime-checked
cast inside deref always succeeds and its panicking branch is
unreachable. -/
theorem deref_never_fails (w : World) (h : Handle) (hp : HandleProvenance w h) :
    ∃ v, Handle.deref w h = some v := by
  obtain ⟨inner, hh, ht⟩ := wellTyped_of_provenance w h hp
  refine ⟨inner.value, ?_⟩
  simp [Handle.deref, hh, ht]

/-- Witness for claim C9: the handle returned by inserting an Int value
under key a into a fresh cache dereferences successfully. -/
theorem deref_never_fails_witness :
    ∃ v, Handle.deref (ResourceCache.insert (World.new 2) "a" (DynValue.vInt 1)).2
      (ResourceCache.insert (World.new 2) "a" (DynValue.vInt 1)).1 = some v :=
  deref_never_fails _ _ (HandleProvenance.ofInsert (World.new 2) "a" (DynValue.vInt 1))

/-! Concrete traces shared by several claims. -/

/-- A fresh capacity-2 cache after insert of value 1 under key a: the
returned handle is allocation 0 and the caller holds it. -/
def wIns : World := (ResourceCache.insert (World.new 2) "a" (DynValue.vInt 1)).2

/-- The caller clones its handle to allocation 0, so it now holds two. -/
def wClone : World := World.cloneHandle wIns 0

/-- While the caller still holds two clones of allocation 0, an overwriting
insert of value 2 under the same key creates allocation 1 and detaches
allocation 0 from the key. -/
def wOver : World := (ResourceCache.insert wClone "a" (DynValue.vInt 2)).2

/-- The caller then hands one of its stale clones of allocation 0 back via
remove.  Its strong count is two (both counted clones are external), so the
code demotes: it evicts the newer in_use entry for the key and parks the
stale allocation 0 in loaded. -/
def wBug : World := ResourceCache.remove wOver 0

/-- The sole handle to allocation 0 is handed back while the count is two
(the in_use slot plus the passed handle), so the entry is demoted to
loaded. -/
def wDem : World := ResourceCache.remove wIns 0

/-- An overwriting insert of value 2 under key a while the caller still
holds one handle to allocation 0: that handle becomes the sole owner of
allocation 0. -/
def wDetach : World := (ResourceCache.insert wIns "a" (DynValue.vInt 2)).2

/-- Claim C1 (amended): for a key held in the in_use map whose stored value
does not have the requested dynamic type, get returns none and the world,
in particular the entry's tier, its position and every strong count, is
exactly as before the call. -/
theorem get_mismatch_in_use_frame (w : World) (k : String) (id : RawHandle)
    (tag : TypeTag) (inner : HandleInner)
    (hin : hmLookup w.cache.in_use k = some id)
    (hheap : heapAt w.heap id = some inner)
    (hne : inner.value.typeOf ≠ tag) :
    ResourceCache.get w tag k = (none, w) := by
  have hraw : ResourceCache.get_raw w k =
      (some id, { w with external := id :: w.external }) := by
    simp [ResourceCache.get_raw, hin]
  have hd : RawHandle.downcast w.heap id tag = none := by
    simp [RawHandle.downcast, hheap, hne]
  simp [ResourceCache.get, hraw, hd, removeOne]

/-- Witness for the amended claim C1: with allocation 0 of Int type stored
in in_use under key a, a get at the Str tag returns none and leaves the
world untouched. -/
theorem get_mismatch_in_use_frame_witness :
    ResourceCache.get wIns TypeTag.tStr "a" = (none, wIns) :=
  get_mismatch_in_use_frame wIns "a" 0 TypeTag.tStr ⟨"a", DynValue.vInt 1⟩
    (by decide) (by decide) (by decide)

/-- Counterexample to claim C1 as stated: with the sole entry sitting in the
loaded tier, get with the wrong type still returns none but promotes the
entry into in_use, so the entry's tier does change. -/
theorem get_mismatch_moves_loaded_entry :
    hmLookup wDem.cache.loaded "a" = some 0 ∧
    hmLookup wDem.cache.in_use "a" = none ∧
    (ResourceCache.get wDem TypeTag.tStr "a").1 = none ∧
    hmLookup (ResourceCache.get wDem TypeTag.tStr "a").2.cache.loaded "a" = none ∧
    hmLookup (ResourceCache.get wDem TypeTag.tStr "a").2.cache.in_use "a" = some 0 := by
  decide

/-- Claim C2 evaluated at its failing input: in wOver the in_use slot for
key a holds the newer allocation 1, which is not pointer-identical to the
stale handle 0 being returned, yet remove demotes anyway: it drops the
newer entry from in_use and parks stale allocation 0 in loaded. -/
theorem remove_no_identity_check :
    hmLookup wOver.cache.in_use "a" = some 1 ∧
    ¬ RawHandle.ptr_eq 0 1 ∧
    wOver.strongCount 0 = 2 ∧
    wBug.cache.in_use = [] ∧
    hmLookup wBug.cache.loaded "a" = some 0 := by
  decide

/-- Claim C3 refuted on the code: wBug is reachable through the public
interface, its loaded pool holds allocation 0, and that allocation still
has strong count two because an external caller retains a clone, so the
loaded slot is not the sole owner and evicting it would not destroy the
value. -/
theorem loaded_not_sole_owner :
    Reachable wBug ∧
    hmLookup wBug.cache.loaded "a" = some 0 ∧
    wBug.strongCount 0 = 2 := by
  refine ⟨?_, by decide, by decide⟩
  have h0 : Reachable (World.new 2) := Reachable.init 2 (by decide)
  have h1 : Reachable wIns :=
    Reachable.step _ _ h0 (Step.insert (World.new 2) "a" (DynValue.vInt 1))
  have h2 : Reachable wClone := Reachable.step _ _ h1 (Step.clone wIns 0 (by decide))
  have h3 : Reachable wOver :=
    Reachable.step _ _ h2 (Step.insert wClone "a" (DynValue.vInt 2))
  exact Reachable.step _ _ h3 (Step.remove wOver 0 (by decide))

/-- Claim C5: when the strong count of the passed handle's allocation
exceeds two, remove changes nothing except consuming the passed-in
reference, and get_raw immediately afterwards still serves the key from
in_use. -/
theorem remove_gated (w : World) (id : RawHandle) (inner : HandleInner)
    (hheap : heapAt w.heap id = some inner)
    (hslot : hmLookup w.cache.in_use inner.key = some id)
    (hcount : 2 < w.strongCount id) :
    ResourceCache.remove w id = { w with external := removeOne w.external id } ∧
    (ResourceCache.get_raw (ResourceCache.remove w id) inner.key).1 = some id := by
  have hne : ¬ w.strongCount id = 2 := by omega
  have h1 : ResourceCache.remove w id = { w with external := removeOne w.external id } := by
    simp [ResourceCache.remove, hheap, hne]
  refine ⟨h1, ?_⟩
  rw [h1]
  simp [ResourceCache.get_raw, hslot]

/-- Witness for claim C5: in wClone the caller holds two clones of
allocation 0, so its strong count is three; remove only consumes the passed
clone and get_raw still hits in_use. -/
theorem remove_gated_witness :
    ResourceCache.remove wClone 0 =
      { wClone with external := removeOne wClone.external 0 } ∧
    (ResourceCache.get_raw (ResourceCache.remove wClone 0) "a").1 = some 0 :=
  remove_gated wClone 0 ⟨"a", DynValue.vInt 1⟩ (by decide) (by decide) (by decide)

/-- Claim C6: demotion and promotion round-trip.  After insert of value 1
under key a and remove of the sole external handle, the key sits in loaded
(with loaded of size one and in_use empty); get_raw then returns the very
same allocation, the key is back in in_use, loaded is empty, and the
allocation still carries value 1. -/
theorem demote_promote_round_trip :
    (ResourceCache.insert (World.new 2) "a" (DynValue.vInt 1)).1.raw = 0 ∧
    hmLookup wDem.cache.loaded "a" = some 0 ∧
    wDem.cache.loaded.length = 1 ∧
    hmLookup wDem.cache.in_use "a" = none ∧
    (ResourceCache.get_raw wDem "a").1 = some 0 ∧
    hmLookup (ResourceCache.get_raw wDem "a").2.cache.in_use "a" = some 0 ∧
    (ResourceCache.get_raw wDem "a").2.cache.loaded = [] ∧
    heapAt wDem.heap 0 = some ⟨"a", DynValue.vInt 1⟩ := by
  decide

/-- Three keys inserted into a capacity-2 cache and fully released in
order: the third demotion overflows the pool and evicts the
least-recently-demoted key k1. -/
def wEvict : World :=
  ResourceCache.remove
    (ResourceCache.remove
      (ResourceCache.remove
        (ResourceCache.insert
          (ResourceCache.insert
            (ResourceCache.insert (World.new 2) "k1" (DynValue.vInt 1)).2
            "k2" (DynValue.vInt 2)).2
          "k3" (DynValue.vInt 3)).2 0) 1) 2

/-- Claim C7: LRU eviction under capacity.  After inserting k1, k2, k3 into
a capacity-2 cache and releasing each in order, loaded holds exactly k2 and
k3, in_use is empty, and k1 is gone: get_raw on it returns none. -/
theorem lru_eviction_under_capacity :
    wEvict.cache.loaded = [("k3", 2), ("k2", 1)] ∧
    wEvict.cache.in_use = [] ∧
    (ResourceCache.get_raw wEvict "k1").1 = none := by
  decide

/-- Claim C8: insert postcondition.  In any well-formed world, after insert
the key is served from in_use and absent from loaded, the returned handle
dereferences to the inserted value, the fresh allocation's strong count is
exactly two (the returned handle plus the cache's in_use slot), and one
more external clone raises it to three. -/
theorem insert_post (w : World) (k : String) (v : DynValue) (hwf : WF w) :
    hmLookup (ResourceCache.insert w k v).2.cache.in_use k =
      some (ResourceCache.insert w k v).1.raw ∧
    hmLookup (ResourceCache.insert w k v).2.cache.loaded k = none ∧
    Handle.deref (ResourceCache.insert w k v).2 (ResourceCache.insert w k v).1 = some v ∧
    (ResourceCache.insert w k v).2.strongCount (ResourceCache.insert w k v).1.raw = 2 ∧
    (World.cloneHandle (ResourceCache.insert w k v).2
        (ResourceCache.insert w k v).1.raw).strongCount
      (ResourceCache.insert w k v).1.raw = 3 := by
  obtain ⟨hwf1, hwf2, hwf3⟩ := hwf
  have hin : countVals (hmErase w.cache.in_use k) w.heap.length = 0 :=
    countVals_eq_zero _ _ (fun p hp => Nat.ne_of_lt (hwf1 p (mem_hmErase _ _ _ hp)))
  have hld : countVals (hmErase w.cache.loaded k) w.heap.length = 0 :=
    countVals_eq_zero _ _ (fun p hp => Nat.ne_of_lt (hwf2 p (mem_hmErase _ _ _ hp)))
  have hex : natCount w.external w.heap.length = 0 :=
    natCount_eq_zero _ _ (fun x hx => Nat.ne_of_lt (hwf3 x hx))
  refine ⟨?_, ?_, ?_, ?_, ?_⟩
  · exact hmLookup_hmInsert_self _ _ _
  · exact hmLookup_hmErase_self _ _
  · show Handle.deref _ _ = some v
    simp [Handle.deref, insert_heap, insert_handle, heapAt_append_self]
  · show countVals (hmInsert w.cache.in_use k w.heap.length) w.heap.length +
        countVals (hmErase w.cache.loaded k) w.heap.length +
        natCount (w.heap.length :: w.external) w.heap.length = 2
    simp [hmInsert, countVals, natCount, hin, hld, hex]
  · show countVals (hmInsert w.cache.in_use k w.heap.length) w.heap.length +
        countVals (hmErase w.cache.loaded k) w.heap.length +
        natCount (w.heap.length :: w.heap.length :: w.external) w.heap.length = 3
    simp [hmInsert, countVals, natCount, hin, hld, hex]

/-- Witness for claim C8: inserting value 7 under key a into a fresh
capacity-2 cache. -/
theorem insert_post_witness :
    hmLookup (ResourceCache.insert (World.new 2) "a" (DynValue.vInt 7)).2.cache.in_use "a" =
      some (ResourceCache.insert (World.new 2) "a" (DynValue.vInt 7)).1.raw ∧
    hmLookup (ResourceCache.insert (World.new 2) "a" (DynValue.vInt 7)).2.cache.loaded "a" =
      none ∧
    Handle.deref (ResourceCache.insert (World.new 2) "a" (DynValue.vInt 7)).2
      (ResourceCache.insert (World.new 2) "a" (DynValue.vInt 7)).1 = some (DynValue.vInt 7) ∧
    (ResourceCache.insert (World.new 2) "a" (DynValue.vInt 7)).2.strongCount
      (ResourceCache.insert (World.new 2) "a" (DynValue.vInt 7)).1.raw = 2 ∧
    (World.cloneHandle (ResourceCache.insert (World.new 2) "a" (DynValue.vInt 7)).2
        (ResourceCache.insert (World.new 2) "a" (DynValue.vInt 7)).1.raw).strongCount
      (ResourceCache.insert (World.new 2) "a" (DynValue.vInt 7)).1.raw = 3 :=
  insert_post (World.new 2) "a" (DynValue.vInt 7) (by decide)

/-- Claim C10: removing a handle that is the sole remaining owner of its
allocation (strong count one, counting the handle being passed in, as
happens to a handle detached from its key by an overwriting insert) leaves
both cache tiers untouched, and the allocation's strong count drops to
zero: the value is destroyed instead of re-entering the cache. -/
theorem remove_sole_owner (w : World) (id : RawHandle) (inner : HandleInner)
    (hheap : heapAt w.heap id = some inner)
    (hmem : id ∈ w.external)
    (hcount : w.strongCount id = 1) :
    (ResourceCache.remove w id).cache = w.cache ∧
    (ResourceCache.remove w id).heap = w.heap ∧
    (ResourceCache.remove w id).strongCount id = 0 := by
  have hne : ¬ w.strongCount id = 2 := by omega
  have h1 : ResourceCache.remove w id = { w with external := removeOne w.external id } := by
    simp [ResourceCache.remove, hheap, hne]
  have hcv : countVals w.cache.in_use id = 0 ∧ countVals w.cache.loaded id = 0 ∧
      natCount w.external id = 1 := by
    have hpos : 0 < natCount w.external id := natCount_pos_of_mem _ _ hmem
    unfold World.strongCount at hcount
    omega
  refine ⟨by rw [h1], by rw [h1], ?_⟩
  rw [h1]
  show countVals w.cache.in_use id + countVals w.cache.loaded id +
      natCount (removeOne w.external id) id = 0
  rw [natCount_removeOne_self]
  omega

/-- Witness for claim C10: in wDetach the caller's handle to allocation 0
was detached from its key by the overwriting insert and is the sole owner;
remove leaves both tiers unchanged and drops the last reference. -/
theorem remove_sole_owner_witness :
    (ResourceCache.remove wDetach 0).cache = wDetach.cache ∧
    (ResourceCache.remove wDetach 0).heap = wDetach.heap ∧
    (ResourceCache.remove wDetach 0).strongCount 0 = 0 :=
  remove_sole_owner wDetach 0 ⟨"a", DynValue.vInt 1⟩ (by decide) (by decide) (by decide)
